import Mathlib

/-!
Verification of the synchronization/merge engine of `workout_tracker.py`.

Shallow embedding notes:
* A JSON document `{"plans": {...}, "logs": [...]}` is a `Doc`: `plans` is an
  insertion-ordered association list (a Python `dict`), `logs` a list.
* A `Plan` dict is represented by its `updated_at` field (absent = `none`,
  mirroring `"updated_at" not in p`) plus an opaque association list `rest`
  for all the other fields (`name`, `start_date`, `schedule`, ...), which the
  merge engine never inspects.
* A `LogEntry` dict is represented by the fields the engine reads --
  `date`, `exercise`, `ts` (each optional, mirroring `.get`) -- plus the
  opaque `rest` payload (`weight`, `reps`, `sets`, `volume`, ...).
* A `ts` value is an integer or a string (`TsVal`); Python's `int(...)`
  conversion is modelled by `TsVal.toIntOpt` (a string converts exactly when
  it parses as an integer, and raises -- `none` -- otherwise).
* Wall-clock time is modelled by explicit parameters: `iso_now()`
  (`datetime.utcnow().isoformat() + "Z"`) becomes `iso_now base` for an
  abstract clock reading `base`, and `now_ts()` (`int(time.time())`) becomes
  an `Int` parameter.  Within one call of the engine the clock is held fixed.
* `_ensure_timestamps` mutates its argument in place in Python; here it is a
  pure function `ensure_timestamps`, and the in-place effect of
  `merge_user_data` on its two arguments is exposed by
  `merge_user_data_effect`, which returns the merged document together with
  the post-call states of the two inputs.
-/

namespace WorkoutTracker

/-- A JSON value for a log entry's `ts` field: an integer, or a string. -/
inductive TsVal where
  | int (n : Int)
  | str (s : String)
deriving DecidableEq

/-- One step of decimal-digit accumulation. -/
def pushDigit (acc : Option Nat) (c : Char) : Option Nat :=
  match acc with
  | none => none
  | some n => if c.isDigit then some (n * 10 + (c.toNat - 48)) else none

/-- Parse a non-empty all-digit character list as a natural number. -/
def strToNatOpt (cs : List Char) : Option Nat :=
  match cs with
  | [] => none
  | _ => cs.foldl pushDigit (some 0)

/-- Python `int(s)` on a string: an optional leading minus sign followed by
decimal digits.  (Python additionally strips whitespace and accepts `+` and
`_` digit separators; no claim depends on those inputs.) -/
def strToIntOpt (s : String) : Option Int :=
  match s.data with
  | [] => none
  | c :: rest =>
      if c = Char.ofNat 45 then (strToNatOpt rest).map (fun n => -(n : Int))
      else (strToNatOpt (c :: rest)).map (fun n => (n : Int))

/-- Python `int(v)` on a `ts` value: an integer converts to itself, a string
converts exactly when it parses as an integer and raises (`none`) otherwise. -/
def TsVal.toIntOpt : TsVal → Option Int
  | .int n => some n
  | .str s => strToIntOpt s

/-- A `Plan` dict, as the merge engine sees it: the `updated_at` field
(`none` when the key is absent) and the remaining, uninspected fields. -/
structure Plan where
  updated_at : Option String
  rest : List (String × String)
deriving DecidableEq

/-- A `LogEntry` dict, as the merge engine sees it: `date`, `exercise`, `ts`
(each `none` when the key is absent) and the remaining, uninspected fields. -/
structure LogEntry where
  date : Option String
  exercise : Option String
  ts : Option TsVal
  rest : List (String × String)
deriving DecidableEq

/-- A user document: `{"plans": {...}, "logs": [...]}`.  The `plans` dict is
an insertion-ordered association list, as in CPython. -/
structure Doc where
  plans : List (String × Plan)
  logs : List LogEntry
deriving DecidableEq

/-- The empty document `{"plans": {}, "logs": []}`. -/
def emptyDoc : Doc := ⟨[], []⟩

/-- Source `iso_now()`: `datetime.utcnow().isoformat() + "Z"` for an abstract clock
reading `base`.  The trailing `"Z"` of the source is kept because it makes the
result provably non-empty. -/
def iso_now (base : String) : String := base ++ "Z"

/-- One plan's share of `_ensure_timestamps`:
`if "updated_at" not in p: p["updated_at"] = iso_now()`. -/
def fillPlan (nowIso : String) (p : Plan) : Plan :=
  if p.updated_at.isSome then p else { p with updated_at := some nowIso }

/-- One log entry's share of `_ensure_timestamps`:
`if "ts" not in e: e["ts"] = now_ts()`. -/
def fillEntry (nowTs : Int) (e : LogEntry) : LogEntry :=
  if e.ts.isSome then e else { e with ts := some (.int nowTs) }

/-- Source `_ensure_timestamps(data)`: backfill `updated_at` on every plan missing
it and `ts` on every log entry missing it.  (In Python this mutates `data`
in place; here it returns the updated document.) -/
def ensure_timestamps (base : String) (nowTs : Int) (d : Doc) : Doc :=
  { plans := d.plans.map (fun np => (np.1, fillPlan (iso_now base) np.2)),
    logs := d.logs.map (fillEntry nowTs) }

/-- Python truthiness of a `Plan` dict: a dict is truthy iff non-empty. -/
def Plan.truthy (p : Plan) : Bool :=
  p.updated_at.isSome || !p.rest.isEmpty

/-- Python `p.get("updated_at", "")`. -/
def Plan.updatedAtGetD (p : Plan) : String := p.updated_at.getD ""

/-- The per-name plan choice of `merge_user_data`, on the results `lp`, `rp`
of the two dict lookups (`None` = `none`):
`if lp and rp: (lp if lp["updated_at"] >= rp["updated_at"] else rp)
 else: lp or rp`.
The result is `none` exactly when Python would store `None` (both absent, or
only a falsy `lp` present) -- which cannot happen after `_ensure_timestamps`,
see `mergePlanVal_isSome`. -/
def mergePlanVal : Option Plan → Option Plan → Option Plan
  | some l, some r =>
      if l.truthy && r.truthy then
        if r.updatedAtGetD ≤ l.updatedAtGetD then some l else some r
      else if l.truthy then some l else some r
  | some l, none => if l.truthy then some l else none
  | none, rp => rp

/-- The log-entry identity key `(e.get("date"), e.get("exercise"), e.get("ts"))`. -/
def LogEntry.key (e : LogEntry) : Option String × Option String × Option TsVal :=
  (e.date, e.exercise, e.ts)

/-- CPython dict assignment `m[k] = v`: replace the value in place if the key
is present (keeping its position), else append the new binding. -/
def dictInsert {K V : Type} [DecidableEq K] (m : List (K × V)) (k : K) (v : V) :
    List (K × V) :=
  if (m.map Prod.fst).contains k then
    m.map (fun kv => if kv.1 = k then (k, v) else kv)
  else m ++ [(k, v)]

/-- Assign a list of bindings into a dict, left to right. -/
def dictInsertAll {K V : Type} [DecidableEq K] (m : List (K × V))
    (kvs : List (K × V)) : List (K × V) :=
  kvs.foldl (fun acc kv => dictInsert acc kv.1 kv.2) m

/-- Python `e.get("date", "")`, the first component of the log sort key. -/
def dateKey (e : LogEntry) : String := e.date.getD ""

/-- Python `int(x.get("ts", 0))` -- `none` when the conversion raises. -/
def tsSortInt (e : LogEntry) : Option Int :=
  match e.ts with
  | none => some 0
  | some t => t.toIntOpt

/-- Whether the sort key `lambda x: (x.get("date", ""), -int(x.get("ts", 0)))`
can be computed for every element, i.e. whether `merged_logs.sort` succeeds. -/
def sortOk (l : List LogEntry) : Bool :=
  l.all (fun e => (tsSortInt e).isSome)

/-- The Python sort key `(x.get("date", ""), -int(x.get("ts", 0)))`. -/
def sortKeyP (e : LogEntry) : String × Int :=
  (dateKey e, -((tsSortInt e).getD 0))

/-- Lexicographic code-point order on character lists: exactly how CPython
compares two `str` values. -/
def charsLt : List Char → List Char → Prop
  | _, [] => False
  | [], _ :: _ => True
  | c :: cs, d :: ds => c.toNat < d.toNat ∨ (c = d ∧ charsLt cs ds)

instance charsLt.dec : (a b : List Char) → Decidable (charsLt a b)
  | [], [] => isFalse (fun h => h)
  | _ :: _, [] => isFalse (fun h => h)
  | [], _ :: _ => isTrue trivial
  | c :: cs, d :: ds =>
      have ih : Decidable (charsLt cs ds) := charsLt.dec cs ds
      if h1 : c.toNat < d.toNat then isTrue (Or.inl h1)
      else
        if h2 : c = d then
          match ih with
          | isTrue ht => isTrue (Or.inr ⟨h2, ht⟩)
          | isFalse hf => isFalse (fun h => match h with
              | Or.inl hl => h1 hl
              | Or.inr ⟨_, hr⟩ => hf hr)
        else isFalse (fun h => match h with
            | Or.inl hl => h1 hl
            | Or.inr ⟨he, _⟩ => h2 he)

/-- CPython string comparison `s < t`: code-point lexicographic. -/
def pyStrLt (s t : String) : Prop := charsLt s.data t.data

instance pyStrLt.dec (s t : String) : Decidable (pyStrLt s t) :=
  charsLt.dec s.data t.data

/-- Lexicographic order on the sort keys (CPython tuple comparison). -/
def pairLe (x y : String × Int) : Prop :=
  pyStrLt x.1 y.1 ∨ (x.1 = y.1 ∧ x.2 ≤ y.2)

instance pairLe.dec (x y : String × Int) : Decidable (pairLe x y) := by
  unfold pairLe; infer_instance

/-- The comparison realising Python's stable ascending sort by `sortKeyP`:
date ascending, then `ts` descending (via the negated integer). -/
def logLeP (a b : LogEntry) : Prop := pairLe (sortKeyP a) (sortKeyP b)

instance logLeP.dec : DecidableRel logLeP := fun _ _ => pairLe.dec _ _

/-- Lines 541-546 of the source:
`merged_logs.sort(key=...)` inside `try: ... except Exception: pass`.
CPython computes all sort keys before moving any element, so when a key
raises the list is left in its original order.  CPython's sort is stable, and
a stable sort by a total preorder has a unique output (the order of
`(key, original position)` pairs); it is realised here by the stable
`List.insertionSort`. -/
def canonicalSort (l : List LogEntry) : List LogEntry :=
  if sortOk l then List.insertionSort logLeP l else l

/-- The `seen` dict of `merge_user_data` after both insertion loops: all
remote entries, then all local entries, keyed by `LogEntry.key`. -/
def seenDict (lLogs rLogs : List LogEntry) :
    List ((Option String × Option String × Option TsVal) × LogEntry) :=
  dictInsertAll (dictInsertAll [] (rLogs.map (fun e => (e.key, e))))
    (lLogs.map (fun e => (e.key, e)))

/-- Python `list(seen.values())`: the merged logs before the canonical sort. -/
def mergedLogsRaw (lLogs rLogs : List LogEntry) : List LogEntry :=
  (seenDict lLogs rLogs).map Prod.snd

/-- Source `plan_names = set(local["plans"]) | set(remote["plans"])`.  A Python
`set`'s iteration order is unspecified; it is realised here as the local
names followed by the new remote names -- every claim below depends on
`merged["plans"]` only through lookup. -/
def planNamesOf (l r : Doc) : List String :=
  (l.plans.map Prod.fst) ++
    ((r.plans.map Prod.fst).filter (fun n => !((l.plans.map Prod.fst).contains n)))

/-- The `merged["plans"]` loop of lines 521-530, on already-normalized
documents.  A `None` produced by `lp or rp` (impossible after
`_ensure_timestamps`, see `lookup_ensure_truthy`) would be a `None`-valued
binding in Python; `filterMap` drops it. -/
def mergedPlans (l r : Doc) : List (String × Plan) :=
  (planNamesOf l r).filterMap (fun n =>
    (mergePlanVal (List.lookup n l.plans) (List.lookup n r.plans)).map
      (fun p => (n, p)))

/-- Source `merge_user_data(local, remote)` (lines 504-549), with the wall
clock as parameters. -/
def merge_user_data (base : String) (nowTs : Int) (ld rd : Doc) : Doc :=
  let l := ensure_timestamps base nowTs ld
  let r := ensure_timestamps base nowTs rd
  { plans := mergedPlans l r,
    logs := canonicalSort (mergedLogsRaw l.logs r.logs) }

/-- The full effect of calling `merge_user_data(local, remote)` in Python:
the returned document, together with the final states of the two arguments,
which `_ensure_timestamps` mutates in place (lines 513-515). -/
def merge_user_data_effect (base : String) (nowTs : Int) (ld rd : Doc) :
    Doc × Doc × Doc :=
  (merge_user_data base nowTs ld rd,
   ensure_timestamps base nowTs ld,
   ensure_timestamps base nowTs rd)

/-- A document all of whose plans carry `updated_at` and all of whose log
entries carry `ts` -- i.e. one on which `_ensure_timestamps` has nothing
to backfill. -/
def Doc.normalizedB (d : Doc) : Bool :=
  d.plans.all (fun np => np.2.updated_at.isSome) && d.logs.all (fun e => e.ts.isSome)

/-- The plan-merge rule in the spec's words, for comparison with the code:
for a name on exactly one side, that side's plan; for a name on both sides,
the plan whose `updated_at` string is lexicographically greater, the local
one on a tie. -/
def specPlanPick : Option Plan → Option Plan → Option Plan
  | some l, some r => if l.updatedAtGetD < r.updatedAtGetD then some r else some l
  | some l, none => some l
  | none, rp => rp

/-! ### The stored-blob decoding path of `load_user_data` (lines 451-467)

The byte and JSON codecs are external library collaborators; a stored blob
is represented here by the outcome of the two decoding stages that
`load_user_data` runs on it: UTF-8 decoding (line 459, *outside* the `try`)
and `json.loads` (line 461, inside the `try`). -/

/-- A JSON value, as produced by `json.loads`. -/
inductive JVal where
  | obj (kvs : List (String × JVal))
  | arr (xs : List JVal)
  | jstr (s : String)
  | jnum (n : Int)
  | jbool (b : Bool)
  | jnull

/-- A stored blob, by how its bytes decode: not valid UTF-8, or valid UTF-8
whose `json.loads` outcome is `none` (parse error) or `some v`. -/
inductive Blob where
  | invalidUtf8
  | utf8 (parsed : Option JVal)

/-- The outcome of `load_user_data` on a blob: a returned top-level dict,
or an uncaught exception. -/
inductive LoadResult where
  | ok (data : List (String × JVal))
  | raises

/-- Python `data.setdefault(k, v)`'s effect on the dict `data`. -/
def setdefault (kvs : List (String × JVal)) (k : String) (v : JVal) :
    List (String × JVal) :=
  if (kvs.map Prod.fst).contains k then kvs else kvs ++ [(k, v)]

/-- The decoding part of `load_user_data` (lines 459-467):
`raw = fh.read().decode("utf-8")` raises on invalid UTF-8 (outside the
`try`); `json.loads(raw)` failures are caught and replaced by
`{"plans": {}, "logs": []}`; then `data.setdefault("plans", {})` and
`data.setdefault("logs", [])` run -- raising `AttributeError` when `data`
is not a dict (valid JSON whose top level is not an object). -/
def load_user_data : Blob → LoadResult
  | .invalidUtf8 => .raises
  | .utf8 none =>
      .ok (setdefault (setdefault [("plans", .obj []), ("logs", .arr [])]
        "plans" (.obj [])) "logs" (.arr []))
  | .utf8 (some v) =>
      match v with
      | .obj kvs => .ok (setdefault (setdefault kvs "plans" (.obj [])) "logs" (.arr []))
      | _ => .raises

/-! ### Dictionary lemmas -/

theorem contains_map_fst_iff {K V : Type} [DecidableEq K] {m : List (K × V)}
    {k : K} : (m.map Prod.fst).contains k = true ↔ ∃ v, (k, v) ∈ m := by
  simp [List.contains, List.elem_iff]

theorem key_uniq {K V : Type} {m : List (K × V)}
    (hnd : (m.map Prod.fst).Nodup) {kv kv2 : K × V}
    (h1 : kv ∈ m) (h2 : kv2 ∈ m) (hk : kv.1 = kv2.1) : kv = kv2 := by
  induction m with
  | nil => cases h1
  | cons x xs ih =>
    have hx : x.1 ∉ xs.map Prod.fst := (List.nodup_cons.mp hnd).1
    have hxs : (xs.map Prod.fst).Nodup := (List.nodup_cons.mp hnd).2
    rcases List.mem_cons.mp h1 with h1 | h1 <;> rcases List.mem_cons.mp h2 with h2 | h2
    · rw [h1, h2]
    · exfalso
      apply hx
      rw [h1] at hk
      rw [hk]
      exact List.mem_map_of_mem Prod.fst h2
    · exfalso
      apply hx
      rw [h2] at hk
      rw [← hk]
      exact List.mem_map_of_mem Prod.fst h1
    · exact ih hxs h1 h2

theorem mem_dictInsert {K V : Type} [DecidableEq K] {m : List (K × V)} {k : K}
    {v : V} {kv : K × V} (h : kv ∈ dictInsert m k v) : kv ∈ m ∨ kv = (k, v) := by
  unfold dictInsert at h
  by_cases hc : (m.map Prod.fst).contains k = true
  · rw [if_pos hc] at h
    rcases List.mem_map.mp h with ⟨kv0, hkv0, heq⟩
    by_cases hk : kv0.1 = k
    · right; rw [if_pos hk] at heq; exact heq.symm
    · left; rw [if_neg hk] at heq; exact heq ▸ hkv0
  · rw [if_neg hc] at h
    rcases List.mem_append.mp h with h1 | h1
    · exact Or.inl h1
    · exact Or.inr (List.mem_singleton.mp h1)

theorem map_fst_dictInsert_of_contains {K V : Type} [DecidableEq K]
    {m : List (K × V)} {k : K} (v : V) (hc : (m.map Prod.fst).contains k = true) :
    (dictInsert m k v).map Prod.fst = m.map Prod.fst := by
  unfold dictInsert
  rw [if_pos hc, List.map_map]
  apply List.map_congr_left
  intro kv _
  by_cases hk : kv.1 = k
  · simp [Function.comp, hk]
  · simp [Function.comp, hk]

theorem map_fst_dictInsert_of_not_contains {K V : Type} [DecidableEq K]
    {m : List (K × V)} {k : K} (v : V) (hc : ¬ (m.map Prod.fst).contains k = true) :
    (dictInsert m k v).map Prod.fst = m.map Prod.fst ++ [k] := by
  unfold dictInsert
  rw [if_neg hc]
  simp

theorem nodup_fst_dictInsert {K V : Type} [DecidableEq K] {m : List (K × V)}
    {k : K} (v : V) (h : (m.map Prod.fst).Nodup) :
    ((dictInsert m k v).map Prod.fst).Nodup := by
  by_cases hc : (m.map Prod.fst).contains k = true
  · rw [map_fst_dictInsert_of_contains v hc]; exact h
  · rw [map_fst_dictInsert_of_not_contains v hc]
    have hk : k ∉ m.map Prod.fst := by
      intro hmem
      rcases List.mem_map.mp hmem with ⟨kv0, hkv0, hfst⟩
      exact hc (contains_map_fst_iff.mpr ⟨kv0.2, by rw [← hfst]; exact hkv0⟩)
    simp [List.nodup_append, h, hk]

theorem mem_dictInsert_of_ne {K V : Type} [DecidableEq K] {m : List (K × V)}
    {k k' : K} {v v' : V} (hne : k' ≠ k) :
    (k', v') ∈ dictInsert m k v ↔ (k', v') ∈ m := by
  unfold dictInsert
  by_cases hc : (m.map Prod.fst).contains k = true
  · rw [if_pos hc]
    constructor
    · intro h
      rcases List.mem_map.mp h with ⟨kv0, hkv0, heq⟩
      by_cases hk : kv0.1 = k
      · rw [if_pos hk] at heq
        exact absurd (congrArg Prod.fst heq).symm hne
      · rw [if_neg hk] at heq; exact heq ▸ hkv0
    · intro h
      refine List.mem_map.mpr ⟨(k', v'), h, ?_⟩
      rw [if_neg (by simpa using hne)]
  · rw [if_neg hc]
    constructor
    · intro h
      rcases List.mem_append.mp h with h1 | h1
      · exact h1
      · exact absurd (congrArg Prod.fst (List.mem_singleton.mp h1)) hne
    · intro h; exact List.mem_append.mpr (Or.inl h)

theorem eq_of_mem_dictInsert_self {K V : Type} [DecidableEq K] {m : List (K × V)}
    {k : K} {v w : V} (h : (k, w) ∈ dictInsert m k v) : w = v := by
  unfold dictInsert at h
  by_cases hc : (m.map Prod.fst).contains k = true
  · rw [if_pos hc] at h
    rcases List.mem_map.mp h with ⟨kv0, _, heq⟩
    by_cases hk : kv0.1 = k
    · rw [if_pos hk] at heq
      exact (congrArg Prod.snd heq).symm
    · rw [if_neg hk] at heq
      exact absurd (congrArg Prod.fst heq) (by simpa using hk)
  · rw [if_neg hc] at h
    rcases List.mem_append.mp h with h1 | h1
    · exact absurd (contains_map_fst_iff.mpr ⟨w, h1⟩) hc
    · exact congrArg Prod.snd (List.mem_singleton.mp h1)

theorem dictInsert_eq_of_mem {K V : Type} [DecidableEq K] {m : List (K × V)}
    {k : K} {v : V} (hnd : (m.map Prod.fst).Nodup) (h : (k, v) ∈ m) :
    dictInsert m k v = m := by
  unfold dictInsert
  rw [if_pos (contains_map_fst_iff.mpr ⟨v, h⟩)]
  have huniq : ∀ kv ∈ m, kv.1 = k → kv = (k, v) := by
    intro kv hkv hk1
    exact key_uniq hnd hkv h hk1
  conv_rhs => rw [← List.map_id m]
  apply List.map_congr_left
  intro kv hkv
  by_cases hk : kv.1 = k
  · rw [if_pos hk, huniq kv hkv hk]; rfl
  · rw [if_neg hk]; rfl

theorem dictInsertAll_cons {K V : Type} [DecidableEq K] (m : List (K × V))
    (x : K × V) (kvs : List (K × V)) :
    dictInsertAll m (x :: kvs) = dictInsertAll (dictInsert m x.1 x.2) kvs := rfl

theorem mem_dictInsertAll {K V : Type} [DecidableEq K] {m kvs : List (K × V)}
    {kv : K × V} (h : kv ∈ dictInsertAll m kvs) : kv ∈ m ∨ kv ∈ kvs := by
  induction kvs generalizing m with
  | nil => exact Or.inl h
  | cons x rest ih =>
    rw [dictInsertAll_cons] at h
    rcases ih h with h1 | h1
    · rcases mem_dictInsert h1 with h2 | h2
      · exact Or.inl h2
      · exact Or.inr (List.mem_cons.mpr (Or.inl (by rw [h2])))
    · exact Or.inr (List.mem_cons.mpr (Or.inr h1))

theorem nodup_fst_dictInsertAll {K V : Type} [DecidableEq K] {m kvs : List (K × V)}
    (h : (m.map Prod.fst).Nodup) : ((dictInsertAll m kvs).map Prod.fst).Nodup := by
  induction kvs generalizing m with
  | nil => exact h
  | cons x rest ih => exact ih (nodup_fst_dictInsert x.2 h)

theorem mem_dictInsertAll_of_not_mem_keys {K V : Type} [DecidableEq K]
    {m kvs : List (K × V)} {k : K} {v : V} (hk : k ∉ kvs.map Prod.fst) :
    (k, v) ∈ dictInsertAll m kvs ↔ (k, v) ∈ m := by
  induction kvs generalizing m with
  | nil => exact Iff.rfl
  | cons x rest ih =>
    have hk1 : k ≠ x.1 := by
      intro hkx
      exact hk (by rw [hkx]; exact List.mem_map_of_mem Prod.fst (List.mem_cons_self x rest))
    have hk2 : k ∉ rest.map Prod.fst := by
      intro hmem
      exact hk (by simp [List.mem_cons] at hmem ⊢; exact Or.inr hmem)
    rw [dictInsertAll_cons, ih hk2, mem_dictInsert_of_ne hk1]

theorem mem_of_key_mem_dictInsertAll {K V : Type} [DecidableEq K]
    {m kvs : List (K × V)} {k : K} {v : V} (hk : k ∈ kvs.map Prod.fst)
    (h : (k, v) ∈ dictInsertAll m kvs) : (k, v) ∈ kvs := by
  induction kvs generalizing m with
  | nil => cases hk
  | cons x rest ih =>
    rw [dictInsertAll_cons] at h
    by_cases hkr : k ∈ rest.map Prod.fst
    · exact List.mem_cons.mpr (Or.inr (ih hkr h))
    · have hkx : k = x.1 := by
        have hk2 : k ∈ x.1 :: rest.map Prod.fst := by simpa using hk
        rcases List.mem_cons.mp hk2 with h1 | h1
        · exact h1
        · exact absurd h1 hkr
      have h2 : (k, v) ∈ dictInsert m x.1 x.2 :=
        (mem_dictInsertAll_of_not_mem_keys hkr).mp h
      subst hkx
      have := eq_of_mem_dictInsert_self h2
      rw [this]
      exact List.mem_cons.mpr (Or.inl (by rw [← this]; simp [this]))

theorem dictInsert_append_left {K V : Type} [DecidableEq K]
    {m m2 : List (K × V)} {k : K} (v : V) (hk : k ∉ m.map Prod.fst) :
    dictInsert (m ++ m2) k v = m ++ dictInsert m2 k v := by
  unfold dictInsert
  have hcm : ¬ (m.map Prod.fst).contains k = true := by
    intro hc
    rcases contains_map_fst_iff.mp hc with ⟨w, hw⟩
    exact hk (List.mem_map_of_mem Prod.fst hw)
  by_cases hc2 : (m2.map Prod.fst).contains k = true
  · have hc : ((m ++ m2).map Prod.fst).contains k = true := by
      rcases contains_map_fst_iff.mp hc2 with ⟨w, hw⟩
      exact contains_map_fst_iff.mpr ⟨w, List.mem_append.mpr (Or.inr hw)⟩
    rw [if_pos hc, if_pos hc2, List.map_append]
    congr 1
    conv_rhs => rw [← List.map_id m]
    apply List.map_congr_left
    intro kv hkv
    rw [if_neg (by intro hkk; exact hk (hkk ▸ List.mem_map_of_mem Prod.fst hkv))]
    rfl
  · have hc : ¬ ((m ++ m2).map Prod.fst).contains k = true := by
      intro hc
      rcases contains_map_fst_iff.mp hc with ⟨w, hw⟩
      rcases List.mem_append.mp hw with h1 | h1
      · exact hk (List.mem_map_of_mem Prod.fst h1)
      · exact hc2 (contains_map_fst_iff.mpr ⟨w, h1⟩)
    rw [if_neg hc, if_neg hc2, List.append_assoc]

theorem dictInsertAll_append_left {K V : Type} [DecidableEq K]
    {m m2 kvs : List (K × V)} (hk : ∀ k ∈ kvs.map Prod.fst, k ∉ m.map Prod.fst) :
    dictInsertAll (m ++ m2) kvs = m ++ dictInsertAll m2 kvs := by
  induction kvs generalizing m2 with
  | nil => rfl
  | cons x rest ih =>
    rw [dictInsertAll_cons, dictInsertAll_cons,
      dictInsert_append_left x.2
        (hk x.1 (List.mem_map_of_mem Prod.fst (List.mem_cons_self x rest)))]
    exact ih (fun k hkmem => hk k (by simp [List.mem_cons] at hkmem ⊢; exact Or.inr hkmem))

theorem dictInsertAll_nil_of_nodup {K V : Type} [DecidableEq K]
    {kvs : List (K × V)} (hnd : (kvs.map Prod.fst).Nodup) :
    dictInsertAll ([] : List (K × V)) kvs = kvs := by
  induction kvs with
  | nil => rfl
  | cons x rest ih =>
    have hx : x.1 ∉ rest.map Prod.fst := (List.nodup_cons.mp hnd).1
    have hrest : (rest.map Prod.fst).Nodup := (List.nodup_cons.mp hnd).2
    rw [dictInsertAll_cons]
    have h1 : dictInsert ([] : List (K × V)) x.1 x.2 = [x] := by
      unfold dictInsert; simp
    rw [h1]
    have h2 : dictInsertAll ([x] ++ ([] : List (K × V))) rest
        = [x] ++ dictInsertAll [] rest := by
      apply dictInsertAll_append_left
      intro k hkmem
      simp only [List.map_cons, List.map_nil]
      intro hcontra
      rcases List.mem_singleton.mp hcontra with h3
      exact hx (h3 ▸ hkmem)
    simpa [ih hrest] using h2

theorem dictInsertAll_eq_of_subset {K V : Type} [DecidableEq K]
    {m kvs : List (K × V)} (hnd : (m.map Prod.fst).Nodup)
    (hsub : ∀ kv ∈ kvs, kv ∈ m) : dictInsertAll m kvs = m := by
  induction kvs with
  | nil => rfl
  | cons x rest ih =>
    rw [dictInsertAll_cons, dictInsert_eq_of_mem hnd (hsub x (List.mem_cons_self x rest))]
    exact ih (fun kv hkv => hsub kv (List.mem_cons.mpr (Or.inr hkv)))

/-! ### Association-list lookup lemmas -/

theorem lookup_map_value {K V W : Type} [BEq K] [LawfulBEq K] (f : V → W) (k : K)
    (l : List (K × V)) :
    List.lookup k (l.map (fun np => (np.1, f np.2))) = (List.lookup k l).map f := by
  induction l with
  | nil => rfl
  | cons x xs ih =>
    cases hbeq : (k == x.1) <;> simp [List.lookup, hbeq, ih]

theorem lookup_eq_none_iff {K V : Type} [BEq K] [LawfulBEq K] {k : K}
    {l : List (K × V)} : List.lookup k l = none ↔ k ∉ l.map Prod.fst := by
  induction l with
  | nil => simp [List.lookup]
  | cons x xs ih =>
    cases hbeq : (k == x.1)
    · have hne : k ≠ x.1 := by simpa using hbeq
      simp [List.lookup, hbeq, ih, hne]
    · have heq : k = x.1 := by simpa using hbeq
      simp [List.lookup, hbeq, heq]

theorem lookup_mem {K V : Type} [BEq K] [LawfulBEq K] {k : K} {v : V}
    {l : List (K × V)} (h : List.lookup k l = some v) : (k, v) ∈ l := by
  induction l with
  | nil => simp [List.lookup] at h
  | cons x xs ih =>
    cases hbeq : (k == x.1)
    · simp [List.lookup, hbeq] at h
      exact List.mem_cons.mpr (Or.inr (ih h))
    · have heq : k = x.1 := by simpa using hbeq
      simp [List.lookup, hbeq] at h
      exact List.mem_cons.mpr (Or.inl (by rw [heq, ← h]))

theorem lookup_filterMap_pick {K V : Type} [BEq K] [LawfulBEq K] [DecidableEq K]
    (names : List K) (g : K → Option V) (n : K) :
    List.lookup n (names.filterMap (fun m => (g m).map (fun p => (m, p))))
      = if n ∈ names then g n else none := by
  induction names with
  | nil => simp [List.lookup]
  | cons m rest ih =>
    cases hg : g m
    · rw [List.filterMap_cons]
      simp only [hg, Option.map_none']
      rw [ih]
      by_cases hn : n = m
      · subst hn
        by_cases hmem : n ∈ rest <;> simp [hmem, hg]
      · simp [List.mem_cons, hn]
    · rw [List.filterMap_cons]
      simp only [hg, Option.map_some']
      cases hbeq : (n == m)
      · have hne : n ≠ m := by simpa using hbeq
        rw [List.lookup_cons]
        simp only [hbeq]
        rw [ih]
        simp [List.mem_cons, hne]
      · have heq : n = m := by simpa using hbeq
        rw [List.lookup_cons]
        simp only [hbeq]
        subst heq
        simp [hg]

/-! ### `_ensure_timestamps` lemmas -/

theorem fillPlan_isSome (i : String) (p : Plan) :
    (fillPlan i p).updated_at.isSome = true := by
  unfold fillPlan
  by_cases h : p.updated_at.isSome = true <;> simp [h]

theorem fillPlan_truthy (i : String) (p : Plan) : (fillPlan i p).truthy = true := by
  unfold Plan.truthy
  rw [fillPlan_isSome]
  simp

theorem fillPlan_fillPlan (i1 i2 : String) (p : Plan) :
    fillPlan i2 (fillPlan i1 p) = fillPlan i1 p := by
  unfold fillPlan
  by_cases h : p.updated_at.isSome = true <;> simp [h]

theorem fillPlan_of_isSome (i : String) {p : Plan}
    (h : p.updated_at.isSome = true) : fillPlan i p = p := by
  unfold fillPlan
  rw [if_pos h]

theorem fillEntry_isSome (t : Int) (e : LogEntry) :
    (fillEntry t e).ts.isSome = true := by
  unfold fillEntry
  by_cases h : e.ts.isSome = true <;> simp [h]

theorem fillEntry_fillEntry (t1 t2 : Int) (e : LogEntry) :
    fillEntry t2 (fillEntry t1 e) = fillEntry t1 e := by
  unfold fillEntry
  by_cases h : e.ts.isSome = true <;> simp [h]

theorem fillEntry_of_isSome (t : Int) {e : LogEntry}
    (h : e.ts.isSome = true) : fillEntry t e = e := by
  unfold fillEntry
  rw [if_pos h]

theorem ensure_timestamps_idem (b1 b2 : String) (t1 t2 : Int) (d : Doc) :
    ensure_timestamps b2 t2 (ensure_timestamps b1 t1 d)
      = ensure_timestamps b1 t1 d := by
  unfold ensure_timestamps
  simp only [List.map_map, Doc.mk.injEq]
  constructor
  · apply List.map_congr_left
    intro np _
    simp [Function.comp, fillPlan_fillPlan]
  · apply List.map_congr_left
    intro e _
    simp [Function.comp, fillEntry_fillEntry]

theorem ensure_timestamps_of_normalized (b : String) (t : Int) {d : Doc}
    (h : d.normalizedB = true) : ensure_timestamps b t d = d := by
  have h' : d.plans.all (fun np => np.2.updated_at.isSome) = true
      ∧ d.logs.all (fun e => e.ts.isSome) = true := by
    simpa [Doc.normalizedB] using h
  rcases h' with ⟨hp, hl⟩
  unfold ensure_timestamps
  have h1 : d.plans.map (fun np => (np.1, fillPlan (iso_now b) np.2)) = d.plans := by
    conv_rhs => rw [← List.map_id d.plans]
    apply List.map_congr_left
    intro np hnp
    rw [fillPlan_of_isSome _ (List.all_eq_true.mp hp np hnp)]
    rfl
  have h2 : d.logs.map (fillEntry t) = d.logs := by
    conv_rhs => rw [← List.map_id d.logs]
    apply List.map_congr_left
    intro e he
    rw [fillEntry_of_isSome _ (List.all_eq_true.mp hl e he)]
    rfl
  rw [h1, h2]

theorem lookup_ensure_plans (b : String) (t : Int) (d : Doc) (n : String) :
    List.lookup n (ensure_timestamps b t d).plans
      = (List.lookup n d.plans).map (fillPlan (iso_now b)) :=
  lookup_map_value (fillPlan (iso_now b)) n d.plans

theorem lookup_ensure_truthy (b : String) (t : Int) (d : Doc) {n : String}
    {p : Plan} (h : List.lookup n (ensure_timestamps b t d).plans = some p) :
    p.truthy = true := by
  rw [lookup_ensure_plans] at h
  cases h0 : List.lookup n d.plans
  · rw [h0] at h; cases h
  · rw [h0] at h
    simp only [Option.map_some'] at h
    rw [← Option.some.injEq] at h
    cases h
    exact fillPlan_truthy _ _

theorem ensure_plans_keys (b : String) (t : Int) (d : Doc) :
    (ensure_timestamps b t d).plans.map Prod.fst = d.plans.map Prod.fst := by
  unfold ensure_timestamps
  simp [List.map_map, Function.comp]

theorem iso_now_ne_empty (b : String) : iso_now b ≠ "" := by
  unfold iso_now
  intro h
  have h2 : (b ++ "Z").length = ("" : String).length := by rw [h]
  rw [String.length_append] at h2
  have hz : ("Z" : String).length = 1 := rfl
  have he : ("" : String).length = 0 := rfl
  omega

/-! ### Order lemmas for the canonical sort -/

theorem char_toNat_inj {c d : Char} (h : c.toNat = d.toNat) : c = d :=
  Char.eq_of_val_eq (UInt32.ext h)

theorem charsLt_irrefl : ∀ a : List Char, ¬ charsLt a a
  | [] => fun h => h
  | _ :: cs => fun h => match h with
      | Or.inl hl => Nat.lt_irrefl _ hl
      | Or.inr ⟨_, hr⟩ => charsLt_irrefl cs hr

theorem charsLt_trans : ∀ (a b c : List Char),
    charsLt a b → charsLt b c → charsLt a c := by
  intro a
  induction a with
  | nil =>
    intro b c h1 h2
    cases b with
    | nil => exact h2
    | cons y ys =>
      cases c with
      | nil => exact h2.elim
      | cons z zs => exact trivial
  | cons x xs ih =>
    intro b c h1 h2
    cases b with
    | nil => exact h1.elim
    | cons y ys =>
      cases c with
      | nil => exact h2.elim
      | cons z zs =>
        rcases h1 with h1 | ⟨h1e, h1r⟩ <;> rcases h2 with h2 | ⟨h2e, h2r⟩
        · exact Or.inl (Nat.lt_trans h1 h2)
        · subst h2e
          exact Or.inl h1
        · subst h1e
          exact Or.inl h2
        · subst h1e
          subst h2e
          exact Or.inr ⟨rfl, ih ys zs h1r h2r⟩

theorem charsLt_trichotomy : ∀ (a b : List Char),
    charsLt a b ∨ a = b ∨ charsLt b a := by
  intro a
  induction a with
  | nil =>
    intro b
    cases b with
    | nil => exact Or.inr (Or.inl rfl)
    | cons y ys => exact Or.inl trivial
  | cons x xs ih =>
    intro b
    cases b with
    | nil => exact Or.inr (Or.inr trivial)
    | cons y ys =>
      rcases Nat.lt_trichotomy x.toNat y.toNat with h | h | h
      · exact Or.inl (Or.inl h)
      · have hxy : x = y := char_toNat_inj h
        rcases ih ys with h2 | h2 | h2
        · exact Or.inl (Or.inr ⟨hxy, h2⟩)
        · exact Or.inr (Or.inl (by rw [hxy, h2]))
        · exact Or.inr (Or.inr (Or.inr ⟨hxy.symm, h2⟩))
      · exact Or.inr (Or.inr (Or.inl h))

theorem charsLt_asymm {a b : List Char} (h1 : charsLt a b) (h2 : charsLt b a) :
    False := charsLt_irrefl a (charsLt_trans a b a h1 h2)

theorem pyStrLt_irrefl (s : String) : ¬ pyStrLt s s := charsLt_irrefl s.data

theorem pyStrLt_trans {s t u : String} (h1 : pyStrLt s t) (h2 : pyStrLt t u) :
    pyStrLt s u := charsLt_trans s.data t.data u.data h1 h2

theorem pyStrLt_trichotomy (s t : String) :
    pyStrLt s t ∨ s = t ∨ pyStrLt t s := by
  rcases charsLt_trichotomy s.data t.data with h | h | h
  · exact Or.inl h
  · exact Or.inr (Or.inl (String.toList_inj.mp h))
  · exact Or.inr (Or.inr h)

theorem pairLe_refl (x : String × Int) : pairLe x x := Or.inr ⟨rfl, le_refl _⟩

theorem pairLe_trans {x y z : String × Int} (h1 : pairLe x y) (h2 : pairLe y z) :
    pairLe x z := by
  rcases h1 with h1 | ⟨h1e, h1i⟩ <;> rcases h2 with h2 | ⟨h2e, h2i⟩
  · exact Or.inl (pyStrLt_trans h1 h2)
  · exact Or.inl (h2e ▸ h1)
  · exact Or.inl (h1e ▸ h2)
  · exact Or.inr ⟨h1e.trans h2e, le_trans h1i h2i⟩

theorem pairLe_total (x y : String × Int) : pairLe x y ∨ pairLe y x := by
  rcases pyStrLt_trichotomy x.1 y.1 with h | h | h
  · exact Or.inl (Or.inl h)
  · rcases le_total x.2 y.2 with hi | hi
    · exact Or.inl (Or.inr ⟨h, hi⟩)
    · exact Or.inr (Or.inr ⟨h.symm, hi⟩)
  · exact Or.inr (Or.inl h)

theorem pairLe_antisymm {x y : String × Int} (h1 : pairLe x y) (h2 : pairLe y x) :
    x = y := by
  rcases h1 with h1 | ⟨h1e, h1i⟩ <;> rcases h2 with h2 | ⟨h2e, h2i⟩
  · exact (charsLt_asymm h1 h2).elim
  · exact absurd h1 (h2e ▸ pyStrLt_irrefl y.1)
  · exact absurd h2 (h1e ▸ pyStrLt_irrefl x.1)
  · exact Prod.ext h1e (le_antisymm h1i h2i)

instance : IsTotal LogEntry logLeP := ⟨fun _ _ => pairLe_total _ _⟩

instance : IsTrans LogEntry logLeP := ⟨fun _ _ _ => pairLe_trans⟩

theorem canonicalSort_perm (l : List LogEntry) : (canonicalSort l).Perm l := by
  unfold canonicalSort
  by_cases h : sortOk l = true
  · rw [if_pos h]; exact List.perm_insertionSort logLeP l
  · rw [if_neg h]

theorem canonicalSort_sorted {l : List LogEntry} (h : sortOk l = true) :
    (canonicalSort l).Pairwise logLeP := by
  unfold canonicalSort
  rw [if_pos h]
  exact List.sorted_insertionSort logLeP l

theorem canonicalSort_of_not_ok {l : List LogEntry} (h : sortOk l = false) :
    canonicalSort l = l := by
  unfold canonicalSort
  rw [if_neg (by rw [h]; simp)]

theorem sortOk_iff {l : List LogEntry} :
    sortOk l = true ↔ ∀ e ∈ l, (tsSortInt e).isSome = true := by
  unfold sortOk
  exact List.all_eq_true

theorem sortOk_of_perm {l1 l2 : List LogEntry} (h : l1.Perm l2) :
    sortOk l1 = sortOk l2 := by
  cases h2 : sortOk l2
  · cases h1 : sortOk l1
    · rfl
    · exfalso
      have := sortOk_iff.mp h1
      have h2' : sortOk l2 = true :=
        sortOk_iff.mpr (fun e he => this e (h.mem_iff.mpr he))
      rw [h2] at h2'
      cases h2'
  · exact sortOk_iff.mpr (fun e he => (sortOk_iff.mp h2) e (h.mem_iff.mp he))

/-- Two sorted lists that are permutations of each other and whose sort keys
are pairwise distinct are equal. -/
theorem eq_of_perm_sorted_nodup_keys :
    ∀ {l1 l2 : List LogEntry}, l1.Perm l2 → l1.Pairwise logLeP →
      l2.Pairwise logLeP → (l1.map sortKeyP).Nodup → l1 = l2 := by
  intro l1
  induction l1 with
  | nil =>
    intro l2 hp _ _ _
    exact (hp.symm.eq_nil).symm
  | cons a t1 ih =>
    intro l2 hp hs1 hs2 hnd
    cases l2 with
    | nil => exact absurd hp.eq_nil (by simp)
    | cons b t2 =>
      by_cases hab : a = b
      · subst hab
        have ht : t1 = t2 :=
          ih hp.cons_inv (List.pairwise_cons.mp hs1).2 (List.pairwise_cons.mp hs2).2
            (List.nodup_cons.mp hnd).2
        rw [ht]
      · exfalso
        have hat2 : a ∈ t2 := by
          rcases List.mem_cons.mp (hp.mem_iff.mp (List.mem_cons_self a t1)) with h | h
          · exact absurd h hab
          · exact h
        have hbt1 : b ∈ t1 := by
          rcases List.mem_cons.mp (hp.mem_iff.mpr (List.mem_cons_self b t2)) with h | h
          · exact absurd h.symm hab
          · exact h
        have hab1 : logLeP a b := (List.pairwise_cons.mp hs1).1 b hbt1
        have hba1 : logLeP b a := (List.pairwise_cons.mp hs2).1 a hat2
        have hkey : sortKeyP a = sortKeyP b := pairLe_antisymm hab1 hba1
        have hnd' := List.nodup_cons.mp hnd
        exact hnd'.1 (hkey ▸ List.mem_map_of_mem sortKeyP hbt1)

/-! ### Structure of the merged logs -/

theorem seenDict_inv {lL rL : List LogEntry}
    {kv : (Option String × Option String × Option TsVal) × LogEntry}
    (h : kv ∈ seenDict lL rL) :
    kv.1 = kv.2.key ∧ (kv.2 ∈ lL ∨ kv.2 ∈ rL) := by
  unfold seenDict at h
  rcases mem_dictInsertAll h with h1 | h1
  · rcases mem_dictInsertAll h1 with h2 | h2
    · cases h2
    · rcases List.mem_map.mp h2 with ⟨e, he, heq⟩
      rw [← heq]
      exact ⟨rfl, Or.inr he⟩
  · rcases List.mem_map.mp h1 with ⟨e, he, heq⟩
    rw [← heq]
    exact ⟨rfl, Or.inl he⟩

theorem seenDict_nodup_fst (lL rL : List LogEntry) :
    ((seenDict lL rL).map Prod.fst).Nodup := by
  unfold seenDict
  exact nodup_fst_dictInsertAll (nodup_fst_dictInsertAll (by simp))

theorem mergedLogsRaw_mem {lL rL : List LogEntry} {e : LogEntry}
    (h : e ∈ mergedLogsRaw lL rL) : e ∈ lL ∨ e ∈ rL := by
  unfold mergedLogsRaw at h
  rcases List.mem_map.mp h with ⟨kv, hkv, heq⟩
  exact heq ▸ (seenDict_inv hkv).2

theorem mergedLogsRaw_keys_nodup (lL rL : List LogEntry) :
    ((mergedLogsRaw lL rL).map LogEntry.key).Nodup := by
  unfold mergedLogsRaw
  rw [List.map_map]
  have heq : (seenDict lL rL).map (LogEntry.key ∘ Prod.snd)
      = (seenDict lL rL).map Prod.fst := by
    apply List.map_congr_left
    intro kv hkv
    exact ((seenDict_inv hkv).1).symm
  rw [heq]
  exact seenDict_nodup_fst lL rL

theorem map_fst_map_pair (l : List LogEntry) :
    ((l.map (fun e => (e.key, e))).map Prod.fst) = l.map LogEntry.key := by
  rw [List.map_map]
  rfl

theorem mergedLogsRaw_local {lL rL : List LogEntry} {k} {e : LogEntry}
    (hkL : k ∈ lL.map LogEntry.key) (he : e ∈ mergedLogsRaw lL rL)
    (hek : e.key = k) : e ∈ lL := by
  unfold mergedLogsRaw at he
  rcases List.mem_map.mp he with ⟨kv, hkv, heq⟩
  have hinv := (seenDict_inv hkv).1
  have hkv1 : kv = (k, e) := by
    rcases kv with ⟨k0, e0⟩
    have h2 : e0 = e := heq
    have h3 : k0 = e0.key := hinv
    rw [h2] at h3
    rw [h2, h3, hek]
  rw [hkv1] at hkv
  unfold seenDict at hkv
  have hkL2 : k ∈ (lL.map (fun e => (e.key, e))).map Prod.fst := by
    rw [map_fst_map_pair]
    exact hkL
  have hmem := mem_of_key_mem_dictInsertAll hkL2 hkv
  rcases List.mem_map.mp hmem with ⟨e0, he0, heq0⟩
  have : e0 = e := congrArg Prod.snd heq0
  exact this ▸ he0

theorem merge_logs_eq (base : String) (nowTs : Int) (ld rd : Doc) :
    (merge_user_data base nowTs ld rd).logs
      = canonicalSort (mergedLogsRaw (ensure_timestamps base nowTs ld).logs
          (ensure_timestamps base nowTs rd).logs) := rfl

theorem merge_plans_eq (base : String) (nowTs : Int) (ld rd : Doc) :
    (merge_user_data base nowTs ld rd).plans
      = mergedPlans (ensure_timestamps base nowTs ld)
          (ensure_timestamps base nowTs rd) := rfl

/-! ### The plan-merge characterisation -/

theorem mem_planNamesOf {l r : Doc} {n : String} :
    n ∈ planNamesOf l r ↔ n ∈ l.plans.map Prod.fst ∨ n ∈ r.plans.map Prod.fst := by
  unfold planNamesOf
  rw [List.mem_append, List.mem_filter]
  constructor
  · rintro (h | ⟨h, _⟩)
    · exact Or.inl h
    · exact Or.inr h
  · intro h
    by_cases hl : n ∈ l.plans.map Prod.fst
    · exact Or.inl hl
    · rcases h with h | h
      · exact absurd h hl
      · refine Or.inr ⟨h, ?_⟩
        have hnc : ¬ ((l.plans.map Prod.fst).contains n = true) := by
          intro hc
          rcases contains_map_fst_iff.mp hc with ⟨v, hv⟩
          exact hl (List.mem_map_of_mem Prod.fst hv)
        cases hcv : (l.plans.map Prod.fst).contains n
        · rfl
        · exact absurd hcv hnc

theorem mergePlanVal_eq_spec {lp rp : Option Plan}
    (hl : ∀ p, lp = some p → p.truthy = true)
    (hr : ∀ p, rp = some p → p.truthy = true) :
    mergePlanVal lp rp = specPlanPick lp rp := by
  cases lp with
  | none => cases rp <;> rfl
  | some l =>
    cases rp with
    | none =>
      simp only [mergePlanVal, specPlanPick]
      rw [if_pos (hl l rfl)]
    | some r =>
      simp only [mergePlanVal, specPlanPick]
      rw [if_pos (show (l.truthy && r.truthy) = true by rw [hl l rfl, hr r rfl]; rfl)]
      by_cases hlt : l.updatedAtGetD < r.updatedAtGetD
      · rw [if_neg (not_le.mpr hlt), if_pos hlt]
      · rw [if_pos (not_lt.mp hlt), if_neg hlt]

/-- The central plan-merge lemma: looking a name up in the merged plans is
the spec's last-writer-wins pick of the two lookups into the normalized
inputs. -/
theorem lookup_merge_plans (base : String) (nowTs : Int) (ld rd : Doc)
    (n : String) :
    List.lookup n (merge_user_data base nowTs ld rd).plans
      = specPlanPick (List.lookup n (ensure_timestamps base nowTs ld).plans)
          (List.lookup n (ensure_timestamps base nowTs rd).plans) := by
  rw [merge_plans_eq]
  unfold mergedPlans
  rw [lookup_filterMap_pick]
  by_cases hmem : n ∈ planNamesOf (ensure_timestamps base nowTs ld)
      (ensure_timestamps base nowTs rd)
  · rw [if_pos hmem]
    exact mergePlanVal_eq_spec
      (fun p hp => lookup_ensure_truthy base nowTs ld hp)
      (fun p hp => lookup_ensure_truthy base nowTs rd hp)
  · rw [if_neg hmem]
    rcases not_or.mp ((not_congr mem_planNamesOf).mp hmem) with ⟨hl, hr⟩
    rw [lookup_eq_none_iff.mpr hl, lookup_eq_none_iff.mpr hr]
    rfl

/-! ### Auxiliary facts for the claims -/

theorem specPlanPick_eq_none {a b : Option Plan} :
    specPlanPick a b = none ↔ a = none ∧ b = none := by
  cases a <;> cases b <;> simp [specPlanPick]
  split <;> simp

/-! ## The claims -/

/-- C1: plan merge of `merge(local, remote)`.  Looking any name up in the
merged plans yields exactly the spec's pick on the two (normalized) sides:
a name on exactly one side gives that side's plan unchanged, a name on both
sides gives the plan with the lexicographically greater `updated_at`, the
local one on a tie; and the merged key space is the union of the two sides'
plan names. -/
theorem C1_plan_merge_lww (base : String) (nowTs : Int) (ld rd : Doc) :
    (∀ n, List.lookup n (merge_user_data base nowTs ld rd).plans
      = specPlanPick (List.lookup n (ensure_timestamps base nowTs ld).plans)
          (List.lookup n (ensure_timestamps base nowTs rd).plans))
    ∧ (∀ n, n ∈ (merge_user_data base nowTs ld rd).plans.map Prod.fst
        ↔ (n ∈ ld.plans.map Prod.fst ∨ n ∈ rd.plans.map Prod.fst)) := by
  constructor
  · exact lookup_merge_plans base nowTs ld rd
  · intro n
    have hmem : ∀ (l : List (String × Plan)),
        n ∈ l.map Prod.fst ↔ ¬ (List.lookup n l = none) := by
      intro l
      rw [lookup_eq_none_iff]
      exact (not_not).symm
    rw [hmem, lookup_merge_plans base nowTs ld rd n]
    constructor
    · intro h
      by_contra hc
      rcases not_or.mp hc with ⟨h1, h2⟩
      apply h
      rw [specPlanPick_eq_none]
      constructor
      · rw [lookup_eq_none_iff, ensure_plans_keys]
        exact h1
      · rw [lookup_eq_none_iff, ensure_plans_keys]
        exact h2
    · intro h hc
      rw [specPlanPick_eq_none] at hc
      rcases hc with ⟨h1, h2⟩
      rw [lookup_eq_none_iff, ensure_plans_keys] at h1 h2
      rcases h with h | h
      · exact h1 h
      · exact h2 h

/-- C7: `normalize` (`_ensure_timestamps`) is idempotent and
order-preserving: a second application changes nothing; every plan missing
`updated_at` acquires the non-empty `iso_now` value and every log entry
missing `ts` acquires the clock integer; fields already present are never
overwritten; and neither the plans dict order nor the logs order changes --
positionally, the `i`-th output plan is the `i`-th input plan with only its
`updated_at` backfilled, and the `i`-th output log entry is the `i`-th
input entry with only its `ts` backfilled. -/
theorem C7_normalize_idempotent (b1 b2 : String) (t1 t2 : Int) (d : Doc) :
    ensure_timestamps b2 t2 (ensure_timestamps b1 t1 d) = ensure_timestamps b1 t1 d
    ∧ (∀ n p, (n, p) ∈ d.plans → p.updated_at = none →
        (n, { p with updated_at := some (iso_now b1) })
          ∈ (ensure_timestamps b1 t1 d).plans)
    ∧ (∀ n p, (n, p) ∈ d.plans → p.updated_at.isSome = true →
        (n, p) ∈ (ensure_timestamps b1 t1 d).plans)
    ∧ iso_now b1 ≠ ""
    ∧ (∀ e ∈ d.logs, e.ts = none →
        { e with ts := some (.int t1) } ∈ (ensure_timestamps b1 t1 d).logs)
    ∧ (∀ e ∈ d.logs, e.ts.isSome = true → e ∈ (ensure_timestamps b1 t1 d).logs)
    ∧ (ensure_timestamps b1 t1 d).plans.map Prod.fst = d.plans.map Prod.fst
    ∧ (ensure_timestamps b1 t1 d).logs.length = d.logs.length
    ∧ (∀ i (hi : i < d.plans.length)
        (hi2 : i < (ensure_timestamps b1 t1 d).plans.length),
        (ensure_timestamps b1 t1 d).plans.get ⟨i, hi2⟩
          = ((d.plans.get ⟨i, hi⟩).1, fillPlan (iso_now b1) (d.plans.get ⟨i, hi⟩).2))
    ∧ (∀ i (hi : i < d.logs.length)
        (hi2 : i < (ensure_timestamps b1 t1 d).logs.length),
        (ensure_timestamps b1 t1 d).logs.get ⟨i, hi2⟩
          = fillEntry t1 (d.logs.get ⟨i, hi⟩)) := by
  refine ⟨ensure_timestamps_idem b1 b2 t1 t2 d, ?_, ?_, iso_now_ne_empty b1, ?_, ?_,
    ensure_plans_keys b1 t1 d, by simp [ensure_timestamps], ?_, ?_⟩
  · intro n p hmem hnone
    apply List.mem_map.mpr
    refine ⟨(n, p), hmem, ?_⟩
    simp only
    unfold fillPlan
    rw [hnone]
    rfl
  · intro n p hmem hsome
    apply List.mem_map.mpr
    refine ⟨(n, p), hmem, ?_⟩
    simp only
    rw [fillPlan_of_isSome _ hsome]
  · intro e hmem hnone
    apply List.mem_map.mpr
    refine ⟨e, hmem, ?_⟩
    unfold fillEntry
    rw [hnone]
    rfl
  · intro e hmem hsome
    apply List.mem_map.mpr
    refine ⟨e, hmem, ?_⟩
    exact fillEntry_of_isSome _ hsome
  · intro i hi hi2
    rw [List.get_eq_getElem, List.get_eq_getElem]
    show (d.plans.map (fun np => (np.1, fillPlan (iso_now b1) np.2)))[i] = _
    rw [List.getElem_map]
  · intro i hi hi2
    rw [List.get_eq_getElem, List.get_eq_getElem]
    show (d.logs.map (fillEntry t1))[i] = _
    rw [List.getElem_map]

/-- Witness for C7 at a concrete document: both a plan missing `updated_at`
and a log entry missing `ts` are backfilled. -/
def c7doc : Doc :=
  ⟨[("A", ⟨none, [("name", "A")]⟩)], [⟨some "2024-01-01", some "squat", none, []⟩]⟩

theorem C7_normalize_idempotent_witness :
    (("A", (⟨none, [("name", "A")]⟩ : Plan)) ∈ c7doc.plans)
    ∧ (("A", (⟨some (iso_now "2024-06-01T10:00:00"), [("name", "A")]⟩ : Plan))
        ∈ (ensure_timestamps "2024-06-01T10:00:00" 5 c7doc).plans)
    ∧ (0 < c7doc.logs.length)
    ∧ (ensure_timestamps "2024-06-01T10:00:00" 5 c7doc).logs.get ⟨0, by decide⟩
        = fillEntry 5 (c7doc.logs.get ⟨0, by decide⟩) :=
  ⟨by decide,
   (C7_normalize_idempotent "2024-06-01T10:00:00" "x" 5 6 c7doc).2.1 "A"
     ⟨none, [("name", "A")]⟩ (by decide) rfl,
   by decide,
   (C7_normalize_idempotent "2024-06-01T10:00:00" "x" 5 6
     c7doc).2.2.2.2.2.2.2.2.2 0 (by decide) (by decide)⟩

/-- C8 counterexample: a plan whose `updated_at` is present but the empty
string keeps that empty string through normalization, so it enters the
plan-merge comparison with an empty `updated_at` -- the claim that every
plan has a non-empty `updated_at` before comparison is false. -/
def c8doc : Doc := ⟨[("A", ⟨some "", []⟩)], []⟩

/-- C8 counterexample theorem: at the concrete document `c8doc`, after the
normalization step a plan still carries an empty-string `updated_at`. -/
theorem C8_counterexample :
    (("A", (⟨some "", []⟩ : Plan))
        ∈ (ensure_timestamps "2024-06-01T10:00:00" 0 c8doc).plans)
    ∧ (⟨some "", []⟩ : Plan).updatedAtGetD = "" := by
  constructor
  · decide
  · rfl

/-- C8 (amended): after the normalization step inside `merge`, every plan
has a *present* `updated_at` (`isSome`); the value is moreover non-empty
whenever the field was absent in the input (it is backfilled with the
non-empty `iso_now`), but a present empty-string `updated_at` is kept. -/
theorem C8_amended_updated_at_present (base : String) (nowTs : Int) (d : Doc) :
    (∀ np ∈ (ensure_timestamps base nowTs d).plans, np.2.updated_at.isSome = true)
    ∧ (∀ n p, (n, p) ∈ d.plans → p.updated_at = none →
        ((n, { p with updated_at := some (iso_now base) })
            ∈ (ensure_timestamps base nowTs d).plans
          ∧ iso_now base ≠ "")) := by
  constructor
  · intro np hnp
    rcases List.mem_map.mp hnp with ⟨np0, _, heq⟩
    rw [← heq]
    exact fillPlan_isSome _ _
  · intro n p hmem hnone
    refine ⟨?_, iso_now_ne_empty base⟩
    apply List.mem_map.mpr
    refine ⟨(n, p), hmem, ?_⟩
    simp only
    unfold fillPlan
    rw [hnone]
    rfl

theorem C8_amended_witness :
    ((("A", (⟨none, []⟩ : Plan)) ∈ (⟨[("A", ⟨none, []⟩)], []⟩ : Doc).plans)
      ∧ (("A", (⟨some (iso_now "2024-06-01T10:00:00"), []⟩ : Plan))
          ∈ (ensure_timestamps "2024-06-01T10:00:00" 0
              (⟨[("A", ⟨none, []⟩)], []⟩ : Doc)).plans)) :=
  ⟨by decide,
   ((C8_amended_updated_at_present "2024-06-01T10:00:00" 0
      (⟨[("A", ⟨none, []⟩)], []⟩ : Doc)).2 "A" ⟨none, []⟩ (by decide) rfl).1⟩

/-- C10: when some merged log entry has a `ts` that `int(...)` cannot
convert, the canonical sort is silently skipped (the `except ... pass`)
and the merged logs come back in dict insertion order -- all surviving
remote entries first at their first-insertion positions, then the new local
entries -- instead of an exception propagating. -/
theorem C10_sort_skipped (base : String) (nowTs : Int) (ld rd : Doc)
    (h : ∃ e ∈ mergedLogsRaw (ensure_timestamps base nowTs ld).logs
        (ensure_timestamps base nowTs rd).logs, (tsSortInt e).isSome = false) :
    (merge_user_data base nowTs ld rd).logs
      = mergedLogsRaw (ensure_timestamps base nowTs ld).logs
          (ensure_timestamps base nowTs rd).logs := by
  rw [merge_logs_eq]
  apply canonicalSort_of_not_ok
  rcases h with ⟨e, he, hbad⟩
  cases hOk : sortOk (mergedLogsRaw (ensure_timestamps base nowTs ld).logs
      (ensure_timestamps base nowTs rd).logs)
  · rfl
  · have := sortOk_iff.mp hOk e he
    rw [hbad] at this
    cases this

def c10doc : Doc :=
  ⟨[], [⟨some "2024-01-02", some "curl", some (.str "oops"), []⟩,
        ⟨some "2024-01-01", some "squat", some (.int 100), []⟩]⟩

theorem C10_sort_skipped_witness :
    (∃ e ∈ mergedLogsRaw (ensure_timestamps "T" 0 c10doc).logs
        (ensure_timestamps "T" 0 emptyDoc).logs, (tsSortInt e).isSome = false)
    ∧ (merge_user_data "T" 0 c10doc emptyDoc).logs
        = mergedLogsRaw (ensure_timestamps "T" 0 c10doc).logs
            (ensure_timestamps "T" 0 emptyDoc).logs :=
  ⟨by decide, C10_sort_skipped "T" 0 c10doc emptyDoc (by decide)⟩

/-- C2: log merge of `merge(local, remote)`: the merged logs contain at most
one entry per identity key `(date, exercise, ts)`, and whenever the
(normalized) local and remote logs share an identity key, the entry of the
merged result carrying that key is the local copy. -/
theorem C2_log_dedup_local_wins (base : String) (nowTs : Int) (ld rd : Doc) :
    (((merge_user_data base nowTs ld rd).logs.map LogEntry.key).Nodup)
    ∧ (∀ k e, k ∈ (ensure_timestamps base nowTs ld).logs.map LogEntry.key →
        k ∈ (ensure_timestamps base nowTs rd).logs.map LogEntry.key →
        e ∈ (merge_user_data base nowTs ld rd).logs → e.key = k →
        e ∈ (ensure_timestamps base nowTs ld).logs) := by
  have hperm : ((merge_user_data base nowTs ld rd).logs).Perm
      (mergedLogsRaw (ensure_timestamps base nowTs ld).logs
        (ensure_timestamps base nowTs rd).logs) := by
    rw [merge_logs_eq]
    exact canonicalSort_perm _
  constructor
  · exact ((hperm.map LogEntry.key).nodup_iff).mpr
      (mergedLogsRaw_keys_nodup (ensure_timestamps base nowTs ld).logs
        (ensure_timestamps base nowTs rd).logs)
  · intro k e hkL _ heMem hek
    exact mergedLogsRaw_local hkL (hperm.mem_iff.mp heMem) hek

def c2local : Doc :=
  ⟨[], [⟨some "2024-01-01", some "squat", some (.int 100), [("reps", "5")]⟩]⟩

def c2remote : Doc :=
  ⟨[], [⟨some "2024-01-01", some "squat", some (.int 100), [("reps", "3")]⟩]⟩

theorem C2_log_dedup_local_wins_witness :
    ((⟨some "2024-01-01", some "squat", some (.int 100), [("reps", "5")]⟩ : LogEntry)
        ∈ (merge_user_data "T" 0 c2local c2remote).logs)
    ∧ ((⟨some "2024-01-01", some "squat", some (.int 100), [("reps", "5")]⟩ : LogEntry)
        ∈ (ensure_timestamps "T" 0 c2local).logs) :=
  ⟨by decide,
   (C2_log_dedup_local_wins "T" 0 c2local c2remote).2
     (some "2024-01-01", some "squat", some (.int 100))
     ⟨some "2024-01-01", some "squat", some (.int 100), [("reps", "5")]⟩
     (by decide) (by decide) (by decide) (by decide)⟩

/-- C3: for well-typed inputs (every `ts` convertible by `int(...)`), the
merged logs are sorted by date ascending and, within a date, by `ts`
descending (`logLeP`, i.e. the Python key `(date, -int(ts))` ascending).
The merge is a pure function of its inputs, so repeated calls on the same
inputs return this same, totally ordered sequence. -/
theorem C3_merged_logs_sorted (base : String) (nowTs : Int) (ld rd : Doc)
    (h : ∀ e ∈ (ensure_timestamps base nowTs ld).logs
        ++ (ensure_timestamps base nowTs rd).logs, (tsSortInt e).isSome = true) :
    ((merge_user_data base nowTs ld rd).logs).Pairwise logLeP := by
  rw [merge_logs_eq]
  apply canonicalSort_sorted
  apply sortOk_iff.mpr
  intro e he
  rcases mergedLogsRaw_mem he with h1 | h1
  · exact h e (List.mem_append.mpr (Or.inl h1))
  · exact h e (List.mem_append.mpr (Or.inr h1))

def c3local : Doc :=
  ⟨[], [⟨some "2024-01-02", some "bench", some (.int 50), []⟩,
        ⟨some "2024-01-01", some "squat", some (.int 100), []⟩,
        ⟨some "2024-01-01", some "curl", some (.int 200), []⟩]⟩

def c3remote : Doc :=
  ⟨[], [⟨some "2024-01-03", some "row", none, []⟩]⟩

theorem C3_merged_logs_sorted_witness :
    (∀ e ∈ (ensure_timestamps "T" 7 c3local).logs
        ++ (ensure_timestamps "T" 7 c3remote).logs, (tsSortInt e).isSome = true)
    ∧ ((merge_user_data "T" 7 c3local c3remote).logs).Pairwise logLeP :=
  ⟨by decide, C3_merged_logs_sorted "T" 7 c3local c3remote (by decide)⟩

/-- C4 counterexample: `merge_user_data` *does* mutate its inputs.
`_ensure_timestamps` (lines 513-515) runs in place on both arguments, so a
local document holding a plan without `updated_at` is changed by the call:
its post-call state differs from its pre-call state. -/
def c4doc : Doc := ⟨[("A", ⟨none, [("name", "A")]⟩)], []⟩

/-- C4 counterexample theorem: at a concrete local document holding a plan
without `updated_at`, the post-call state of the local argument differs
from its pre-call state. -/
theorem C4_counterexample :
    (merge_user_data_effect "2024-06-01T10:00:00" 0 c4doc emptyDoc).2.1 ≠ c4doc := by
  decide

/-- C4 (amended): the only in-place mutation `merge_user_data` performs on
its inputs is the normalization backfill; inputs that are already
normalized (every plan has `updated_at`, every log entry has `ts`) are
returned to the caller exactly as they were. -/
theorem C4_amended_no_mutation_when_normalized (base : String) (nowTs : Int)
    (ld rd : Doc) (hl : ld.normalizedB = true) (hr : rd.normalizedB = true) :
    (merge_user_data_effect base nowTs ld rd).2.1 = ld
    ∧ (merge_user_data_effect base nowTs ld rd).2.2 = rd :=
  ⟨ensure_timestamps_of_normalized base nowTs hl,
   ensure_timestamps_of_normalized base nowTs hr⟩

def c4norm : Doc :=
  ⟨[("A", ⟨some "2024-01-01T00:00:00Z", []⟩)],
   [⟨some "2024-01-01", some "squat", some (.int 100), []⟩]⟩

theorem C4_amended_no_mutation_witness :
    c4norm.normalizedB = true
    ∧ (merge_user_data_effect "T" 0 c4norm emptyDoc).2.1 = c4norm :=
  ⟨by decide,
   (C4_amended_no_mutation_when_normalized "T" 0 c4norm emptyDoc
     (by decide) (by decide)).1⟩

/-- C5 counterexample: for a document whose logs carry a duplicated identity
key, `merge(d, d)` deduplicates while `normalize(d)` does not, so
`merge(d, d) == normalize(d)` (after canonical sort) fails. -/
def c5doc : Doc :=
  ⟨[], [⟨some "2024-01-01", some "squat", some (.int 100), [("reps", "3")]⟩,
        ⟨some "2024-01-01", some "squat", some (.int 100), [("reps", "5")]⟩]⟩

/-- C5 counterexample theorem: at a concrete document with a duplicated log
identity key, the merged logs of `merge(d, d)` differ from the canonically
sorted logs of `normalize(d)`. -/
theorem C5_counterexample :
    (merge_user_data "T" 0 c5doc c5doc).logs
      ≠ canonicalSort (ensure_timestamps "T" 0 c5doc).logs := by
  decide

/-- C5 (amended): merge is idempotent on documents whose (normalized) logs
have pairwise-distinct identity keys: `merge(d, d)` has the same plans map
as `normalize(d)` and exactly the canonically sorted logs of
`normalize(d)`. -/
theorem C5_amended_merge_idempotent (base : String) (nowTs : Int) (d : Doc)
    (hnd : (((ensure_timestamps base nowTs d).logs).map LogEntry.key).Nodup) :
    (∀ n, List.lookup n (merge_user_data base nowTs d d).plans
        = List.lookup n (ensure_timestamps base nowTs d).plans)
    ∧ (merge_user_data base nowTs d d).logs
        = canonicalSort (ensure_timestamps base nowTs d).logs := by
  constructor
  · intro n
    rw [lookup_merge_plans]
    cases hA : List.lookup n (ensure_timestamps base nowTs d).plans
    · rfl
    · simp only [specPlanPick]
      rw [if_neg (lt_irrefl _)]
  · rw [merge_logs_eq]
    congr 1
    unfold mergedLogsRaw seenDict
    have hPnd : (((ensure_timestamps base nowTs d).logs.map
        (fun e => (e.key, e))).map Prod.fst).Nodup := by
      rw [map_fst_map_pair]
      exact hnd
    rw [dictInsertAll_nil_of_nodup hPnd,
      dictInsertAll_eq_of_subset hPnd (fun kv hkv => hkv), List.map_map]
    conv_rhs => rw [← List.map_id ((ensure_timestamps base nowTs d).logs)]
    apply List.map_congr_left
    intro e he
    rfl

def c5good : Doc :=
  ⟨[("A", ⟨some "2024-01-01T00:00:00Z", []⟩)],
   [⟨some "2024-01-02", some "bench", some (.int 200), []⟩,
    ⟨some "2024-01-01", some "squat", some (.int 100), []⟩]⟩

theorem C5_amended_merge_idempotent_witness :
    ((((ensure_timestamps "T" 0 c5good).logs).map LogEntry.key).Nodup)
    ∧ (merge_user_data "T" 0 c5good c5good).logs
        = canonicalSort (ensure_timestamps "T" 0 c5good).logs :=
  ⟨by decide, (C5_amended_merge_idempotent "T" 0 c5good (by decide)).2⟩

/-! ### C6: commutativity of the log merge -/

theorem map_snd_map_pair (l : List LogEntry) :
    ((l.map (fun e => (e.key, e))).map Prod.snd) = l := by
  rw [List.map_map]
  conv_rhs => rw [← List.map_id l]
  apply List.map_congr_left
  intro e _
  rfl

theorem seenDict_disjoint {lL rL : List LogEntry}
    (hdisj : ∀ k ∈ lL.map LogEntry.key, k ∉ rL.map LogEntry.key) :
    seenDict lL rL
      = dictInsertAll [] (rL.map (fun e => (e.key, e)))
        ++ dictInsertAll [] (lL.map (fun e => (e.key, e))) := by
  unfold seenDict
  have hkeys : ∀ k ∈ (lL.map (fun e => (e.key, e))).map Prod.fst,
      k ∉ (dictInsertAll [] (rL.map (fun e => (e.key, e)))).map Prod.fst := by
    intro k hk hkdB
    rw [map_fst_map_pair] at hk
    rcases List.mem_map.mp hkdB with ⟨kv, hkv, hfst⟩
    rcases mem_dictInsertAll hkv with h0 | h0
    · cases h0
    · rcases List.mem_map.mp h0 with ⟨e, he, heq⟩
      apply hdisj k hk
      rw [← hfst, ← heq]
      exact List.mem_map_of_mem LogEntry.key he
  calc dictInsertAll (dictInsertAll [] (rL.map (fun e => (e.key, e))))
        (lL.map (fun e => (e.key, e)))
      = dictInsertAll (dictInsertAll [] (rL.map (fun e => (e.key, e))) ++ [])
          (lL.map (fun e => (e.key, e))) := by rw [List.append_nil]
    _ = dictInsertAll [] (rL.map (fun e => (e.key, e)))
          ++ dictInsertAll [] (lL.map (fun e => (e.key, e))) :=
        dictInsertAll_append_left hkeys

theorem mergedLogsRaw_disjoint {lL rL : List LogEntry}
    (hdisj : ∀ k ∈ lL.map LogEntry.key, k ∉ rL.map LogEntry.key) :
    mergedLogsRaw lL rL
      = (dictInsertAll [] (rL.map (fun e => (e.key, e)))).map Prod.snd
        ++ (dictInsertAll [] (lL.map (fun e => (e.key, e)))).map Prod.snd := by
  unfold mergedLogsRaw
  rw [seenDict_disjoint hdisj, List.map_append]

/-- The sort key is a function of the identity key. -/
def keyToSortKey (k : Option String × Option String × Option TsVal) : String × Int :=
  (k.1.getD "", -((match k.2.2 with
    | none => some (0 : Int)
    | some t => t.toIntOpt).getD 0))

theorem sortKeyP_eq_keyToSortKey (e : LogEntry) : sortKeyP e = keyToSortKey e.key := rfl

/-- C6 counterexample: two documents with *disjoint* identity keys whose
entries tie on the `(date, ts)` sort key.  The merged log sequences of
`merge(A, B)` and `merge(B, A)` are permutations of each other (equal as
sets) but are not in identical order after the canonical sort, because the
stable sort keeps the two tied entries in their (opposite) insertion
orders. -/
def c6A : Doc := ⟨[], [⟨some "2024-01-01", some "pull", some (.int 1), []⟩]⟩

def c6B : Doc := ⟨[], [⟨some "2024-01-01", some "push", some (.int 1), []⟩]⟩

/-- C6 counterexample theorem: at the concrete disjoint documents `c6A`,
`c6B`, the two merge orders give permuted but unequal log sequences. -/
theorem C6_counterexample :
    ((merge_user_data "T" 0 c6A c6B).logs).Perm
      ((merge_user_data "T" 0 c6B c6A).logs)
    ∧ (merge_user_data "T" 0 c6A c6B).logs
        ≠ (merge_user_data "T" 0 c6B c6A).logs :=
  ⟨by decide, by decide⟩

/-- C6 (amended): for normalized documents whose log sets share no identity
key, `merge(A,B).logs` and `merge(B,A).logs` are permutations of each other
(equal as sets); when moreover no two entries share the `(date, ts)` sort
key (and every `ts` converts), the two sequences are identical after the
canonical sort. -/
theorem C6_amended_log_commutativity (base : String) (nowTs : Int) (A B : Doc)
    (hA : A.normalizedB = true) (hB : B.normalizedB = true) :
    ((∀ k ∈ A.logs.map LogEntry.key, k ∉ B.logs.map LogEntry.key) →
        ((merge_user_data base nowTs A B).logs).Perm
          ((merge_user_data base nowTs B A).logs))
    ∧ ((((A.logs ++ B.logs).map sortKeyP).Nodup
          ∧ sortOk (A.logs ++ B.logs) = true) →
        (merge_user_data base nowTs A B).logs
          = (merge_user_data base nowTs B A).logs) := by
  have hEA := ensure_timestamps_of_normalized base nowTs hA
  have hEB := ensure_timestamps_of_normalized base nowTs hB
  constructor
  · intro hdisj
    rw [merge_logs_eq, merge_logs_eq, hEA, hEB]
    have hdisj2 : ∀ k ∈ B.logs.map LogEntry.key, k ∉ A.logs.map LogEntry.key :=
      fun k hkB hkA => hdisj k hkA hkB
    have hperm : (mergedLogsRaw A.logs B.logs).Perm (mergedLogsRaw B.logs A.logs) := by
      rw [mergedLogsRaw_disjoint hdisj, mergedLogsRaw_disjoint hdisj2]
      exact List.perm_append_comm
    have hok := sortOk_of_perm hperm
    cases h1 : sortOk (mergedLogsRaw A.logs B.logs)
    · rw [canonicalSort_of_not_ok h1,
        canonicalSort_of_not_ok (by rw [← hok]; exact h1)]
      exact hperm
    · exact (canonicalSort_perm _).trans (hperm.trans (canonicalSort_perm _).symm)
  · rintro ⟨hnd, hok⟩
    have hknd : ((A.logs ++ B.logs).map LogEntry.key).Nodup := by
      have h1 : (A.logs ++ B.logs).map sortKeyP
          = ((A.logs ++ B.logs).map LogEntry.key).map keyToSortKey := by
        rw [List.map_map]
        apply List.map_congr_left
        intro e _
        exact sortKeyP_eq_keyToSortKey e
      rw [h1] at hnd
      exact hnd.of_map
    rw [List.map_append] at hknd
    rcases List.nodup_append.mp hknd with ⟨hndA, hndB, hdisjAB⟩
    have hdisj : ∀ k ∈ A.logs.map LogEntry.key, k ∉ B.logs.map LogEntry.key :=
      fun k hk hk2 => hdisjAB hk hk2
    have hdisj2 : ∀ k ∈ B.logs.map LogEntry.key, k ∉ A.logs.map LogEntry.key :=
      fun k hkB hkA => hdisj k hkA hkB
    have hrawAB : mergedLogsRaw A.logs B.logs = B.logs ++ A.logs := by
      rw [mergedLogsRaw_disjoint hdisj,
        dictInsertAll_nil_of_nodup (by rw [map_fst_map_pair]; exact hndB),
        dictInsertAll_nil_of_nodup (by rw [map_fst_map_pair]; exact hndA),
        map_snd_map_pair, map_snd_map_pair]
    have hrawBA : mergedLogsRaw B.logs A.logs = A.logs ++ B.logs := by
      rw [mergedLogsRaw_disjoint hdisj2,
        dictInsertAll_nil_of_nodup (by rw [map_fst_map_pair]; exact hndA),
        dictInsertAll_nil_of_nodup (by rw [map_fst_map_pair]; exact hndB),
        map_snd_map_pair, map_snd_map_pair]
    rw [merge_logs_eq, merge_logs_eq, hEA, hEB, hrawAB, hrawBA]
    have hokBA : sortOk (A.logs ++ B.logs) = true := hok
    have hokAB : sortOk (B.logs ++ A.logs) = true := by
      rw [sortOk_of_perm (List.perm_append_comm)]
      exact hok
    apply eq_of_perm_sorted_nodup_keys
    · exact (canonicalSort_perm _).trans
        ((List.perm_append_comm).trans (canonicalSort_perm _).symm)
    · exact canonicalSort_sorted hokAB
    · exact canonicalSort_sorted hokBA
    · have hp : ((canonicalSort (B.logs ++ A.logs)).map sortKeyP).Perm
          ((A.logs ++ B.logs).map sortKeyP) :=
        ((canonicalSort_perm _).trans List.perm_append_comm).map sortKeyP
      exact hp.nodup_iff.mpr hnd

def c6wA : Doc := ⟨[], [⟨some "2024-01-01", some "squat", some (.int 100), []⟩]⟩

def c6wB : Doc := ⟨[], [⟨some "2024-01-02", some "bench", some (.int 200), []⟩]⟩

theorem C6_amended_log_commutativity_witness :
    (c6wA.normalizedB = true ∧ c6wB.normalizedB = true
      ∧ ((c6wA.logs ++ c6wB.logs).map sortKeyP).Nodup
      ∧ sortOk (c6wA.logs ++ c6wB.logs) = true)
    ∧ (merge_user_data "T" 0 c6wA c6wB).logs
        = (merge_user_data "T" 0 c6wB c6wA).logs :=
  ⟨⟨by decide, by decide, by decide, by decide⟩,
   (C6_amended_log_commutativity "T" 0 c6wA c6wB (by decide) (by decide)).2
     ⟨by decide, by decide⟩⟩

/-- C9 counterexample: a stored blob that is valid UTF-8 and valid JSON but
whose top level is a JSON array (`b"[]"`), and a blob whose bytes are not
valid UTF-8, both make `load_user_data` raise -- the former through
`data.setdefault` (`AttributeError`, line 465, outside the `try`), the
latter through `.decode("utf-8")` (line 459, outside the `try`).  Neither
is treated like `NotFound`, refuting the claim that every corrupt or
non-conforming blob yields the empty document without raising. -/
theorem C9_counterexample :
    load_user_data (Blob.utf8 (some (JVal.arr []))) = LoadResult.raises
    ∧ load_user_data Blob.invalidUtf8 = LoadResult.raises
    ∧ LoadResult.raises
        ≠ LoadResult.ok [("plans", JVal.obj []), ("logs", JVal.arr [])] :=
  ⟨rfl, rfl, fun h => nomatch h⟩

/-- C9 (amended): only `json.loads` failures are treated identically to
`NotFound` -- for a valid-UTF-8 blob that fails to parse as JSON, the load
substitutes the empty document `{plans: {}, logs: []}` without raising, and
a parsed JSON object gets `plans`/`logs` defaulted in; but a blob that is
not valid UTF-8, or whose JSON top level is not an object, raises instead
(uncaught at the session-start load of `main`). -/
theorem C9_amended_decode_failure (kvs : List (String × JVal)) (xs : List JVal) :
    load_user_data (Blob.utf8 none)
        = LoadResult.ok [("plans", JVal.obj []), ("logs", JVal.arr [])]
    ∧ load_user_data (Blob.utf8 (some (JVal.obj kvs)))
        = LoadResult.ok (setdefault (setdefault kvs "plans" (JVal.obj []))
            "logs" (JVal.arr []))
    ∧ load_user_data Blob.invalidUtf8 = LoadResult.raises
    ∧ load_user_data (Blob.utf8 (some (JVal.arr xs))) = LoadResult.raises :=
  ⟨rfl, rfl, rfl, rfl⟩

end WorkoutTracker
